import Mathlib

set_option maxHeartbeats 1000000
set_option maxRecDepth 4000

namespace MerkleTree

/-- A tree node is a byte string, modelled as a list of naturals
(the Go source's `type Node []byte`). -/
abbrev Node := List Nat

/-- The injected hashing capability (`hash.Hash` in the Go source), modelled
extensionally as the function from the accumulated written bytes to the final
digest (`Reset`; `Write buf`; `Sum(nil)`). -/
abbrev HashFn := List Nat → List Nat

/-- Go: `const DigestLength = 32`. -/
def DigestLength : Nat := 32

/-- Go `bytes.Compare a b`: lexicographic byte comparison returning
-1 / 0 / 1, a missing suffix comparing as smaller. -/
def bytesCompare : List Nat → List Nat → Int
  | [], [] => 0
  | [], _ :: _ => -1
  | _ :: _, [] => 1
  | a :: as, b :: bs => if a < b then -1 else if b < a then 1 else bytesCompare as bs

/-- The Go `Tree` struct: a hashing capability plus the node array. -/
structure Tree where
  hasher : HashFn
  nodes : List Node

/-- The pair hash on a given hash function: Go `(tree *Tree) hashPair`,
which resets the hasher, writes the two operands in byte-ascending order
(`bytes.Compare(a, b) != 1` puts `a` first) and returns the digest. -/
def hashPairFn (H : HashFn) (a b : Node) : Node :=
  if bytesCompare a b ≠ 1 then H (a ++ b) else H (b ++ a)

/-- Go `tree.hashPair(a, b)`, using the tree's hasher. -/
def hashPair (t : Tree) (a b : Node) : Node :=
  hashPairFn t.hasher a b

/-- Go `leftChildIndex(i) = 2*i + 1`. -/
def leftChildIndex (i : Nat) : Nat := 2 * i + 1

/-- Go `rightChildIndex(i) = 2*i + 2`. -/
def rightChildIndex (i : Nat) : Nat := 2 * i + 2

/-- Go `parentIndex`: returns the `(int, error)` pair `(0, err)` for the root
and `(floor((i-1)/2), nil)` otherwise.  The Go source computes the quotient as
`int(math.Floor((float64(i) - 1) / 2))`; for every index of a realizable tree
(far below 2^53, where the float64 arithmetic is exact) the quotient equals
natural floor division, which is what the proof-walk lemmas use
(`parentIndexFl_agree` relates this to the bit-exact model `parentIndexFl`,
which the dedicated `parentIndex` claim is settled against). -/
def parentIndex (i : Nat) : Nat × Option String :=
  if i = 0 then (0, some "root has no parent") else ((i - 1) / 2, none)

/-- Round a natural number to the nearest IEEE-754 binary64 value (exact for
inputs below 2^53, otherwise round to nearest with ties to the even 53-bit
significand): this is what Go's `float64(i)` conversion produces, and also
the rounding a float64 arithmetic operation applies to its exact result. -/
def fl53 (m : Nat) : Nat :=
  if m < 2 ^ 53 then m
  else
    2 ^ (m.log2 - 52) *
      (if 2 * (m % 2 ^ (m.log2 - 52)) < 2 ^ (m.log2 - 52) then m / 2 ^ (m.log2 - 52)
       else if 2 ^ (m.log2 - 52) < 2 * (m % 2 ^ (m.log2 - 52)) then m / 2 ^ (m.log2 - 52) + 1
       else if m / 2 ^ (m.log2 - 52) % 2 = 0 then m / 2 ^ (m.log2 - 52)
       else m / 2 ^ (m.log2 - 52) + 1)

/-- Go `parentIndex` with the float64 arithmetic modelled bit-exactly:
`int(math.Floor((float64(i) - 1) / 2))` is `fl53 (fl53 i - 1) / 2`, because
`float64(i)` rounds to `fl53 i`, the subtraction rounds its exact (integral,
non-negative) result to `fl53 (fl53 i - 1)`, division of a binary float by
two and `math.Floor` of the integral quotient are exact, and the final `int`
conversion of an in-range integral value is exact. -/
def parentIndexFl (i : Nat) : Nat × Option String :=
  if i = 0 then (0, some "root has no parent") else (fl53 (fl53 i - 1) / 2, none)

/-- Go `siblingIndex`: the `(int, error)` pair; `(0, err)` for the root,
`(i-1, nil)` for even `i`, `(i+1, nil)` for odd `i`. -/
def siblingIndex (i : Nat) : Nat × Option String :=
  if i = 0 then (0, some "root has no siblings")
  else if i % 2 = 0 then (i - 1, none) else (i + 1, none)

/-- Go `isTreeNode`: `i >= 0 && i < len(tree.Nodes)` (indices are modelled as
naturals, so `i >= 0` is automatic). -/
def isTreeNode (t : Tree) (i : Nat) : Bool := decide (i < t.nodes.length)

/-- Go `isInternalNode`: the left child position is a tree node. -/
def isInternalNode (t : Tree) (i : Nat) : Bool := isTreeNode t (leftChildIndex i)

/-- Go `isLeafNode`: a tree node that is not internal. -/
def isLeafNode (t : Tree) (i : Nat) : Bool := isTreeNode t i && ! isInternalNode t i

/-- Go `isValidMerkleNode`: the byte length equals `DigestLength`. -/
def isValidMerkleNode (node : Node) : Bool := node.length == DigestLength

/-- Go `isPowerOf2(num) = num&(num-1) == 0`.  (On naturals `0 - 1 = 0`, and in
Go `0 & -1 = 0`, so the two agree at `num = 0` as well.) -/
def isPowerOf2 (num : Nat) : Bool := (num &&& (num - 1)) == 0

/-- The node values produced by `NewMerkeTree`'s construction loops:
leaves are placed at positions `k-1 .. 2k-2` (`tree.Nodes[k-1+i] = leaves[i]`)
and the loop `for i := k-2; i >= 0; i-- { tree.Nodes[i] =
hashPair(tree.Nodes[2i+1], tree.Nodes[2i+2]) }` fills each internal position
from its already-computed children.  `nodeAt` is the solved form of that
recurrence; the extra `fuel` argument (any value that is at least the tree
height, `NewMerkeTree` passes `leaves.length`) only makes the recursion
structural and does not affect the value, see `nodeAt_fuel_mono`. -/
def nodeAt (H : HashFn) (leaves : List Node) : Nat → Nat → Node
  | 0, i => leaves.getD (i - (leaves.length - 1)) []
  | fuel + 1, i =>
    if i + 1 < leaves.length then
      hashPairFn H (nodeAt H leaves fuel (2 * i + 1)) (nodeAt H leaves fuel (2 * i + 2))
    else leaves.getD (i - (leaves.length - 1)) []

/-- The tree value produced by a successful `NewMerkeTree` call: a node array
of length `2k-1` whose entry `i` is `nodeAt ... i`. -/
def buildTree (H : HashFn) (leaves : List Node) : Tree :=
  ⟨H, (List.range (2 * leaves.length - 1)).map (nodeAt H leaves leaves.length)⟩

/-- Go `NewMerkeTree(hasher, leaves)`: rejects empty input, a non power of two
leaf count, a leaf whose byte length is not 32, and a nil hasher (modelled as
`Option`), in the source's order; otherwise builds the tree. -/
def NewMerkeTree (hasher : Option HashFn) (leaves : List Node) : Except String Tree :=
  if leaves.length = 0 then .error "empty leaves"
  else if ! isPowerOf2 leaves.length then .error "only support complete binary tree"
  else if leaves.any (fun leaf => ! isValidMerkleNode leaf) then
    .error "node's byte length is not 32"
  else
    match hasher with
    | none => .error "no hasher"
    | some H => .ok (buildTree H leaves)

/-- The proof-collection loop of Go `GetProofByIndex`:
`for i > 0 { sibIndex, _ := siblingIndex(i); proof = append(proof,
tree.Nodes[sibIndex]); i, _ = parentIndex(i) }`.  The discarded errors and the
out-of-bounds behaviour of `tree.Nodes[sibIndex]` are examined separately by
`proofLoopCheckedAux`.  The `fuel` argument (the loop runs at most `i` times
since the parent index strictly decreases) makes the recursion structural;
`proofLoopAux_mono` shows any sufficient fuel gives the same list. -/
def proofLoopAux (t : Tree) : Nat → Nat → List Node
  | 0, _ => []
  | fuel + 1, i =>
    if i = 0 then []
    else t.nodes.getD (siblingIndex i).1 [] :: proofLoopAux t fuel (parentIndex i).1

/-- The proof-collection loop started at index `i` (fuel `i` suffices). -/
def proofLoop (t : Tree) (i : Nat) : List Node := proofLoopAux t i i

/-- Go `GetProofByIndex`. -/
def GetProofByIndex (t : Tree) (i : Nat) : Except String (List Node) :=
  if ! isLeafNode t i then .error "not a leaf node" else .ok (proofLoop t i)

/-- Go `GetProof`: scan positions `len/2 .. len-1` for the first byte-equal
leaf, then delegate to `GetProofByIndex`. -/
def GetProof (t : Tree) (leaf : Node) : Except String (List Node) :=
  let b := t.nodes.length / 2
  match (List.range' b (t.nodes.length - b)).find? (fun i => t.nodes.getD i [] == leaf) with
  | none => .error "not a leaf node"
  | some i => GetProofByIndex t i

/-- Go `ProcessProof`: length-check the leaf and every proof element, then
fold the pair hash over the proof sequence. -/
def ProcessProof (t : Tree) (leaf : Node) (proof : List Node) : Except String Node :=
  if ! isValidMerkleNode leaf then .error "not a merkle node "
  else if proof.any (fun p => ! isValidMerkleNode p) then .error "not a merkle node "
  else .ok (proof.foldl (fun node p => hashPair t node p) leaf)

/-- Go `isValidMerkleTree`: length+1 must be a power of two, every node must
be a 32-byte digest, positions with two in-bounds children must equal the pair
hash of the children, a position with exactly one in-bounds child fails, and
the array must be non-empty. -/
def isValidMerkleTree (t : Tree) : Bool :=
  isPowerOf2 (t.nodes.length + 1) &&
  ((List.range t.nodes.length).all fun i =>
    isValidMerkleNode (t.nodes.getD i []) &&
    (if t.nodes.length ≤ rightChildIndex i then decide (t.nodes.length ≤ leftChildIndex i)
     else t.nodes.getD i [] ==
       hashPair t (t.nodes.getD (leftChildIndex i) []) (t.nodes.getD (rightChildIndex i) []))) &&
  decide (0 < t.nodes.length)

/-- Go `(tree *Tree) Verify()`. -/
def Verify (t : Tree) : Bool := isValidMerkleTree t

/-! ### Instrumented proof loop

`proofLoopCheckedAux` runs the same loop as `proofLoopAux` but returns `none`
as soon as either discarded error (`sibIndex, _ := siblingIndex(i)` or
`i, _ = parentIndex(i)`) is non-nil or the slice access `tree.Nodes[sibIndex]`
is out of bounds (which would panic in Go). -/

def proofLoopCheckedAux (t : Tree) : Nat → Nat → Option (List Node)
  | 0, _ => some []
  | fuel + 1, i =>
    if i = 0 then some []
    else if (siblingIndex i).2.isSome || (parentIndex i).2.isSome then none
    else if (siblingIndex i).1 < t.nodes.length then
      (proofLoopCheckedAux t fuel (parentIndex i).1).map
        (fun r => t.nodes.getD (siblingIndex i).1 [] :: r)
    else none

/-- The instrumented loop started at index `i`. -/
def proofLoopChecked (t : Tree) (i : Nat) : Option (List Node) := proofLoopCheckedAux t i i

/-- Instrumented `GetProofByIndex`: `some result` when the call performs only
in-bounds accesses and every discarded error is nil, `none` otherwise. -/
def GetProofByIndexChecked (t : Tree) (i : Nat) : Option (Except String (List Node)) :=
  if ! isLeafNode t i then some (.error "not a leaf node")
  else (proofLoopChecked t i).map Except.ok

/-! ### State-instrumented operations

The Go hasher (`hash.Hash`) carries internal mutable state: `hashPair` does
`Reset`, `Write buf`, `Sum(nil)`, leaving the hasher with `buf` absorbed.
`TreeSt` makes that buffer explicit so that mutation of the tree (node array,
hasher function, hasher state) by the query operations can be observed. -/

structure TreeSt where
  hasher : HashFn
  hbuf : List Nat
  nodes : List Node

/-- `hashPair` with the hasher state made explicit: the digest of the
canonically ordered concatenation, and the hasher left holding that buffer. -/
def hashPairSt (t : TreeSt) (a b : Node) : Node × TreeSt :=
  let buf := if bytesCompare a b ≠ 1 then a ++ b else b ++ a
  (t.hasher buf, ⟨t.hasher, buf, t.nodes⟩)

/-- `GetProofByIndex` never invokes the hasher, so the instrumented state is
returned unchanged. -/
def GetProofByIndexSt (t : TreeSt) (i : Nat) : Except String (List Node) × TreeSt :=
  (GetProofByIndex ⟨t.hasher, t.nodes⟩ i, t)

/-- `GetProof` never invokes the hasher either. -/
def GetProofSt (t : TreeSt) (leaf : Node) : Except String (List Node) × TreeSt :=
  (GetProof ⟨t.hasher, t.nodes⟩ leaf, t)

/-- One pair hash inside `ProcessProof`, threading the hasher state. -/
def hashStep (acc : Node × TreeSt) (p : Node) : Node × TreeSt :=
  let hp := hashPairSt acc.2 acc.1 p
  (hp.1, hp.2)

/-- `ProcessProof` with the hasher state threaded through each pair hash. -/
def ProcessProofSt (t : TreeSt) (leaf : Node) (proof : List Node) :
    Except String Node × TreeSt :=
  if ! isValidMerkleNode leaf then (.error "not a merkle node ", t)
  else if proof.any (fun p => ! isValidMerkleNode p) then (.error "not a merkle node ", t)
  else
    let r := proof.foldl hashStep (leaf, t)
    (.ok r.1, r.2)

/-- One loop iteration of `isValidMerkleTree`, threading the hasher state
(a false accumulator models the Go loop's early `return false`: nothing else
runs afterwards). -/
def validStep (n : Nat) (acc : Bool × TreeSt) (i : Nat) : Bool × TreeSt :=
  if ! acc.1 then acc
  else if ! isValidMerkleNode (acc.2.nodes.getD i []) then (false, acc.2)
  else if n ≤ rightChildIndex i then (decide (n ≤ leftChildIndex i), acc.2)
  else
    let hp := hashPairSt acc.2 (acc.2.nodes.getD (leftChildIndex i) [])
      (acc.2.nodes.getD (rightChildIndex i) [])
    (acc.2.nodes.getD i [] == hp.1, hp.2)

/-- `isValidMerkleTree` with the hasher state threaded through the loop. -/
def isValidMerkleTreeSt (t : TreeSt) : Bool × TreeSt :=
  if ! isPowerOf2 (t.nodes.length + 1) then (false, t)
  else
    let n := t.nodes.length
    let r := (List.range n).foldl (validStep n) (true, t)
    (r.1 && decide (0 < n), r.2)

/-- `Verify` with the hasher state made explicit. -/
def VerifySt (t : TreeSt) : Bool × TreeSt := isValidMerkleTreeSt t

/-- The construction loop of `NewMerkeTree` replayed for its hasher-state
effect: `for i := k-2; i >= 0; i--` pair-hashes the two children of `i`, and
at the time of iteration `i` both children already hold their final values,
so running the same pair hashes over the finished node array reproduces the
loop's buffer history exactly. -/
def buildSt (H : HashFn) (hbuf : List Nat) (leaves : List Node) : TreeSt :=
  (List.range (leaves.length - 1)).reverse.foldl
    (fun st i =>
      (hashPairSt st (st.nodes.getD (leftChildIndex i) [])
        (st.nodes.getD (rightChildIndex i) [])).2)
    ⟨H, hbuf, (buildTree H leaves).nodes⟩

/-- `NewMerkeTree` with the hasher state made explicit; `hbuf` is the state
of the supplied hasher (empty for a freshly created one). -/
def NewMerkeTreeSt (hasher : Option HashFn) (hbuf : List Nat) (leaves : List Node) :
    Except String TreeSt :=
  if leaves.length = 0 then .error "empty leaves"
  else if ! isPowerOf2 leaves.length then .error "only support complete binary tree"
  else if leaves.any (fun leaf => ! isValidMerkleNode leaf) then
    .error "node's byte length is not 32"
  else
    match hasher with
    | none => .error "no hasher"
    | some H => .ok (buildSt H hbuf leaves)

/-! ### The reference hash: Keccak-256

The repository's tests build trees with `sha3.NewLegacyKeccak256()` and
document the digests of `"0" .. "3"`.  This is a complete executable
Keccak-256 (original padding `0x01`, rate 136, 24 rounds) over byte lists,
with lanes as naturals reduced mod `2^64`. -/

def mask64 : Nat := 2 ^ 64 - 1

/-- Rotate a 64-bit lane left by `n` (0 ≤ n < 64). -/
def rotl64 (x n : Nat) : Nat := ((x <<< n) ||| (x >>> (64 - n))) &&& mask64

/-- The 24 keccak-f[1600] round constants (FIPS 202), written in decimal:
round r adds the constant RC[r] generated by the degree-8 LFSR. -/
def keccakRC : List Nat :=
  [1, 32898, 9223372036854808714,
   9223372039002292224, 32907, 2147483649,
   9223372039002292353, 9223372036854808585, 138,
   136, 2147516425, 2147483658,
   2147516555, 9223372036854775947, 9223372036854808713,
   9223372036854808579, 9223372036854808578, 9223372036854775936,
   32778, 9223372039002259466, 9223372039002292353,
   9223372036854808704, 2147483649, 9223372039002292232]

/-- Source index of the combined rho-pi permutation: output lane `j` of the
rho-pi step comes from input lane `piSrc[j]` (lanes ordered `x + 5*y`, pi
sending `(x, y)` to `(y, (2x + 3y) mod 5)`). -/
def piSrc : List Nat :=
  [0, 6, 12, 18, 24, 3, 9, 10, 16, 22, 1, 7, 13, 19, 20, 4, 5, 11, 17, 23, 2, 8, 14, 15, 21]

/-- The rho rotation applied to the lane landing at output position `j`,
i.e. the standard per-lane offsets pre-composed with `piSrc`. -/
def rotOffD : List Nat :=
  [0, 44, 43, 21, 14,
   28, 20, 3, 45, 61,
   1, 6, 25, 8, 18,
   27, 36, 10, 15, 56,
   62, 55, 39, 41, 2]

/-- The theta step. -/
def theta (A : List Nat) : List Nat :=
  let C := (List.range 5).map (fun x =>
    (A.getD x 0) ^^^ (A.getD (x + 5) 0) ^^^ (A.getD (x + 10) 0) ^^^
    (A.getD (x + 15) 0) ^^^ (A.getD (x + 20) 0))
  let D := (List.range 5).map (fun x =>
    (C.getD ((x + 4) % 5) 0) ^^^ rotl64 (C.getD ((x + 1) % 5) 0) 1)
  (List.range 25).map (fun i => (A.getD i 0) ^^^ (D.getD (i % 5) 0))

/-- The combined rho and pi steps. -/
def rhoPi (A : List Nat) : List Nat :=
  (List.range 25).map (fun j =>
    rotl64 (A.getD (piSrc.getD j 0) 0) (rotOffD.getD j 0))

/-- The chi step. -/
def chi (A : List Nat) : List Nat :=
  (List.range 25).map (fun j =>
    let x := j % 5
    let y := j - x
    (A.getD j 0) ^^^ (((A.getD (y + (x + 1) % 5) 0) ^^^ mask64) &&& (A.getD (y + (x + 2) % 5) 0)))

/-- keccak-f[1600]: 24 rounds of theta, rho-pi, chi and iota. -/
def keccakF (A : List Nat) : List Nat :=
  keccakRC.foldl (fun st rc =>
    let B := chi (rhoPi (theta st))
    B.set 0 ((B.getD 0 0) ^^^ rc)) A

/-- Original keccak pad10*1 with first padding byte 0x01 (rate 136). -/
def padKeccak (msg : List Nat) : List Nat :=
  let padLen := 136 - msg.length % 136
  if padLen = 1 then msg ++ [0x81]
  else msg ++ [0x01] ++ List.replicate (padLen - 2) 0 ++ [0x80]

/-- Little-endian bytes to a 64-bit lane. -/
def bytesToLane (bs : List Nat) : Nat := bs.foldr (fun b acc => b + 256 * acc) 0

/-- Xor a 136-byte block into the first 17 lanes of the state. -/
def xorIntoState (st block : List Nat) : List Nat :=
  (List.range 25).map (fun j =>
    if j < 17 then (st.getD j 0) ^^^ bytesToLane ((block.drop (8 * j)).take 8) else st.getD j 0)

/-- Absorb the padded message block by block (`fuel` at least the number of
blocks; the padded length is used). -/
def absorbAux : Nat → List Nat → List Nat → List Nat
  | _, st, [] => st
  | 0, st, _ => st
  | fuel + 1, st, rest => absorbAux fuel (keccakF (xorIntoState st (rest.take 136))) (rest.drop 136)

/-- A 64-bit lane to 8 little-endian bytes. -/
def laneToBytes (v : Nat) : List Nat := (List.range 8).map (fun j => (v >>> (8 * j)) % 256)

/-- Keccak-256 of a byte list: pad, absorb, squeeze 32 bytes. -/
def keccak256 (msg : List Nat) : List Nat :=
  let padded := padKeccak msg
  let st := absorbAux padded.length (List.replicate 25 0) padded
  ((List.range 4).map (fun j => laneToBytes (st.getD j 0))).flatten

/-! ### Concrete hashers and trees used by witnesses and counterexamples -/

/-- A trivial 32-byte hasher (any `hash.Hash`-shaped capability works for the
claims that do not depend on collision behaviour). -/
def constHash : HashFn := fun _ => List.replicate 32 0

/-- A 32-byte-output hasher that is injective on 64-byte inputs: byte `i` of
the digest is the Cantor pairing of input bytes `i` and `32+i`. -/
def zipHash : HashFn := fun l =>
  if l.length = 64 then List.zipWith Nat.pair (l.take 32) (l.drop 32)
  else List.replicate 32 0

/-- Overwrite byte `b` of node `j` with `v` (the single-byte mutation of the
mutation-detection property). -/
def setByte (t : Tree) (j b v : Nat) : Tree :=
  ⟨t.hasher, t.nodes.set j ((t.nodes.getD j []).set b v)⟩

/-- The two 32-byte leaves used by construction witnesses. -/
def demoLeaves : List Node := [List.replicate 32 1, List.replicate 32 2]

/-- A single-node tree: any 32-byte node array of length one. -/
def singleTree : Tree := ⟨constHash, [List.replicate 32 3]⟩

/-- A 3-node tree that `isValidMerkleTree` accepts under `constHash`. -/
def tripleTree : Tree := ⟨constHash, [List.replicate 32 0, List.replicate 32 1, List.replicate 32 2]⟩

/-- A 3-node all-zero tree, valid under the constant hasher. -/
def constTree : Tree := ⟨constHash, [List.replicate 32 0, List.replicate 32 0, List.replicate 32 0]⟩

/-- A 3-node tree valid under the injective `zipHash`
(`zipHash (a ++ b) = replicate 32 (Nat.pair 0 1) = replicate 32 1`). -/
def zipTree : Tree := ⟨zipHash, [List.replicate 32 1, List.replicate 32 0, List.replicate 32 1]⟩

/-- An even-length node array (index 1 is classified as a leaf, but its
sibling index 2 is out of bounds). -/
def pairTree : Tree := ⟨constHash, [List.replicate 32 0, List.replicate 32 1]⟩

/-- The four 32-byte leaves of the stateful-build counterexample. -/
def demoLeaves4 : List Node :=
  [List.replicate 32 0, List.replicate 32 1, List.replicate 32 2, List.replicate 32 3]

/-- The four leaves of the repository's concrete test scenario: Keccak-256 of
the ASCII strings "0", "1", "2", "3". -/
def kLeaves : List Node := [keccak256 [48], keccak256 [49], keccak256 [50], keccak256 [51]]

/-- The 7-node tree the tests build over `kLeaves`. -/
def kTree : Tree := buildTree keccak256 kLeaves

/-- Keccak-256 of "0" (the digest documented in the repository's tests). -/
def kL0v : Node :=
  [4, 72, 82, 178, 166, 112, 173, 229, 64, 126, 120, 251, 40, 99, 197, 29,
   233, 252, 185, 101, 66, 160, 113, 134, 254, 58, 237, 166, 187, 138, 17, 109]

/-- Keccak-256 of "1". -/
def kL1v : Node :=
  [200, 158, 253, 170, 84, 192, 242, 12, 122, 223, 97, 40, 130, 223, 9, 80,
   245, 169, 81, 99, 126, 3, 7, 205, 203, 76, 103, 47, 41, 139, 139, 198]

/-- Keccak-256 of "2". -/
def kL2v : Node :=
  [173, 124, 91, 239, 2, 120, 22, 168, 0, 218, 23, 54, 68, 79, 181, 138,
   128, 126, 244, 201, 96, 59, 120, 72, 103, 63, 126, 58, 104, 235, 20, 165]

/-- Keccak-256 of "3". -/
def kL3v : Node :=
  [42, 128, 225, 239, 29, 120, 66, 242, 127, 46, 107, 224, 151, 43, 183, 8,
   185, 161, 53, 195, 136, 96, 219, 231, 60, 39, 195, 72, 108, 52, 244, 222]

/-- The pair hash of L0 and L1 (node 1 of the test tree). -/
def kN1v : Node :=
  [11, 74, 161, 123, 255, 143, 193, 137, 239, 179, 118, 9, 172, 94, 169, 252,
   160, 223, 76, 131, 74, 111, 186, 199, 75, 36, 200, 17, 156, 64, 254, 242]

/-- The pair hash of L2 and L3 (node 2 of the test tree). -/
def kN2v : Node :=
  [88, 207, 184, 176, 13, 101, 43, 167, 131, 191, 59, 230, 240, 71, 232, 3,
   83, 4, 251, 241, 155, 198, 21, 26, 253, 203, 243, 89, 230, 57, 107, 56]

/-- The root of the test tree. -/
def kN0v : Node :=
  [170, 158, 130, 117, 16, 123, 233, 248, 8, 159, 50, 107, 202, 170, 86, 131,
   103, 239, 210, 210, 83, 238, 216, 204, 65, 23, 17, 243, 113, 199, 202, 235]

/-- The test tree with every digest spelled out. -/
def kTreeLit : Tree := ⟨keccak256, [kN0v, kN1v, kN2v, kL0v, kL1v, kL2v, kL3v]⟩

/-- Decidable equality for `Except`, so concrete results can be checked by
`decide`. -/
instance {e a : Type} [DecidableEq e] [DecidableEq a] : DecidableEq (Except e a) := fun x y =>
  match x, y with
  | .error u, .error v => decidable_of_iff (u = v) (by simp)
  | .ok u, .ok v => decidable_of_iff (u = v) (by simp)
  | .error _, .ok _ => isFalse (by simp)
  | .ok _, .error _ => isFalse (by simp)

/-! ## Helper lemmas: byte comparison and the pair hash -/

theorem bytesCompare_cases : ∀ a b : List Nat,
    bytesCompare a b = -1 ∨ bytesCompare a b = 0 ∨ bytesCompare a b = 1
  | [], [] => by simp [bytesCompare]
  | [], _ :: _ => by simp [bytesCompare]
  | _ :: _, [] => by simp [bytesCompare]
  | a :: as, b :: bs => by
    simp only [bytesCompare]
    rcases Nat.lt_trichotomy a b with h | h | h
    · simp [h]
    · subst h
      simpa [Nat.lt_irrefl] using bytesCompare_cases as bs
    · simp [h, Nat.lt_asymm h]

theorem bytesCompare_swap : ∀ a b : List Nat, bytesCompare b a = - bytesCompare a b
  | [], [] => by simp [bytesCompare]
  | [], _ :: _ => by simp [bytesCompare]
  | _ :: _, [] => by simp [bytesCompare]
  | a :: as, b :: bs => by
    simp only [bytesCompare]
    rcases Nat.lt_trichotomy a b with h | h | h
    · simp [h, Nat.lt_asymm h]
    · subst h
      simpa [Nat.lt_irrefl] using bytesCompare_swap as bs
    · simp [h, Nat.lt_asymm h]

theorem bytesCompare_eq_zero_iff : ∀ a b : List Nat, bytesCompare a b = 0 ↔ a = b
  | [], [] => by simp [bytesCompare]
  | [], _ :: _ => by simp [bytesCompare]
  | _ :: _, [] => by simp [bytesCompare]
  | a :: as, b :: bs => by
    simp only [bytesCompare]
    rcases Nat.lt_trichotomy a b with h | h | h
    · rw [if_pos h]
      constructor
      · intro hh; omega
      · intro hh; injection hh with h1 _; omega
    · subst h
      simp only [Nat.lt_irrefl, if_false, List.cons.injEq, true_and]
      exact bytesCompare_eq_zero_iff as bs
    · rw [if_neg (by omega), if_pos h]
      constructor
      · intro hh; omega
      · intro hh; injection hh with h1 _; omega

/-- Order independence of the pair hash: the operands are concatenated in
byte-ascending order before hashing, so swapping them changes nothing. -/
theorem hashPairFn_comm (H : HashFn) (a b : Node) : hashPairFn H a b = hashPairFn H b a := by
  unfold hashPairFn
  rcases bytesCompare_cases a b with h | h | h
  · have h2 : bytesCompare b a = 1 := by rw [bytesCompare_swap a b, h]; norm_num
    rw [if_pos (by omega), if_neg (by omega)]
  · have hab : a = b := (bytesCompare_eq_zero_iff a b).mp h
    subst hab
    rfl
  · have h2 : bytesCompare b a = -1 := by rw [bytesCompare_swap a b, h]
    rw [if_neg (by omega), if_pos (by omega)]

/-- With a hasher that is injective on 64-byte inputs, the pair hash of
32-byte nodes is cancellative in its first operand. -/
theorem hashPairFn_left_cancel (H : HashFn)
    (hInj : ∀ x y : List Nat, x.length = 64 → y.length = 64 → H x = H y → x = y)
    {a c b : Node} (ha : a.length = 32) (hc : c.length = 32) (hb : b.length = 32)
    (h : hashPairFn H a b = hashPairFn H c b) : a = c := by
  unfold hashPairFn at h
  split_ifs at h with h1 h2 h2
  · exact (List.append_inj (hInj _ _ (by simp [ha, hb]) (by simp [hc, hb]) h)
      (by omega)).1
  · obtain ⟨hab, hbc⟩ := List.append_inj
      (hInj _ _ (by simp [ha, hb]) (by simp [hc, hb]) h) (by omega)
    exact hab.trans hbc
  · obtain ⟨hbc, hab⟩ := List.append_inj
      (hInj _ _ (by simp [ha, hb]) (by simp [hc, hb]) h) (by omega)
    exact hab.trans hbc
  · exact (List.append_inj (hInj _ _ (by simp [ha, hb]) (by simp [hc, hb]) h)
      rfl).2

/-! ## Helper lemmas: the power-of-two test -/

theorem isPowerOf2_two_pow (m : Nat) : isPowerOf2 (2 ^ m) = true := by
  simp [isPowerOf2, Nat.and_pow_two_sub_one_eq_mod]

theorem isPowerOf2_exists : ∀ num : Nat, 0 < num → isPowerOf2 num = true → ∃ m, num = 2 ^ m := by
  intro num
  induction num using Nat.strong_induction_on with
  | _ num ih =>
    intro h0 h
    have hland : num &&& (num - 1) = 0 := by simpa [isPowerOf2] using h
    rcases Nat.even_or_odd num with he | ho
    · obtain ⟨j, hj⟩ := he
      have hj1 : 0 < j := by omega
      have hland2 : j &&& (j - 1) = 0 := by
        apply Nat.eq_of_testBit_eq
        intro i
        have hbit := congrArg (fun x => Nat.testBit x (i + 1)) hland
        simp only [Nat.zero_testBit] at hbit ⊢
        rw [Nat.testBit_land] at hbit ⊢
        rw [Nat.testBit_succ, Nat.testBit_succ] at hbit
        have e1 : num / 2 = j := by omega
        have e2 : (num - 1) / 2 = j - 1 := by omega
        rw [e1, e2] at hbit
        exact hbit
      obtain ⟨m, hm⟩ := ih j (by omega) hj1 (by simp [isPowerOf2, hland2])
      refine ⟨m + 1, ?_⟩
      rw [pow_succ]
      omega
    · obtain ⟨j, hj⟩ := ho
      by_cases hj0 : j = 0
      · exact ⟨0, by omega⟩
      · exfalso
        apply hj0
        apply Nat.eq_of_testBit_eq
        intro i
        have hbit := congrArg (fun x => Nat.testBit x (i + 1)) hland
        simp only [Nat.zero_testBit] at hbit ⊢
        rw [Nat.testBit_land, Nat.testBit_succ, Nat.testBit_succ] at hbit
        have e1 : num / 2 = j := by omega
        have e2 : (num - 1) / 2 = j := by omega
        rw [e1, e2] at hbit
        simpa using hbit

theorem isPowerOf2_iff (num : Nat) (h0 : 0 < num) :
    isPowerOf2 num = true ↔ ∃ m, num = 2 ^ m :=
  ⟨isPowerOf2_exists num h0, fun ⟨m, hm⟩ => by rw [hm]; exact isPowerOf2_two_pow m⟩

/-! ## Helper lemmas: the built node array -/

theorem nodeAt_leaf (H : HashFn) (leaves : List Node) (fuel i : Nat)
    (h : ¬ i + 1 < leaves.length) :
    nodeAt H leaves fuel i = leaves.getD (i - (leaves.length - 1)) [] := by
  cases fuel <;> simp [nodeAt, h]

theorem nodeAt_fuel_mono (H : HashFn) (leaves : List Node) :
    ∀ f g i, leaves.length ≤ (i + 1) * 2 ^ f → leaves.length ≤ (i + 1) * 2 ^ g →
      nodeAt H leaves f i = nodeAt H leaves g i := by
  intro f
  induction f with
  | zero =>
    intro g i h1 h2
    have hle : ¬ i + 1 < leaves.length := by simp at h1; omega
    rw [nodeAt_leaf _ _ _ _ hle, nodeAt_leaf _ _ _ _ hle]
  | succ f ih =>
    intro g i h1 h2
    by_cases hi : i + 1 < leaves.length
    · cases g with
      | zero =>
        exfalso
        simp at h2
        omega
      | succ g =>
        simp only [nodeAt, if_pos hi]
        have e1 : (2 * i + 1 + 1) * 2 ^ f = (i + 1) * 2 ^ (f + 1) := by rw [pow_succ]; ring
        have e1g : (2 * i + 1 + 1) * 2 ^ g = (i + 1) * 2 ^ (g + 1) := by rw [pow_succ]; ring
        have c2f : (2 * i + 1 + 1) * 2 ^ f ≤ (2 * i + 2 + 1) * 2 ^ f :=
          Nat.mul_le_mul_right _ (by omega)
        have c2g : (2 * i + 1 + 1) * 2 ^ g ≤ (2 * i + 2 + 1) * 2 ^ g :=
          Nat.mul_le_mul_right _ (by omega)
        rw [ih g (2 * i + 1) (by omega) (by omega), ih g (2 * i + 2) (by omega) (by omega)]
    · rw [nodeAt_leaf _ _ _ _ hi, nodeAt_leaf _ _ _ _ hi]

/-- Fuel adequacy of the fuel `NewMerkeTree` actually passes. -/
theorem nodeAt_fuel_adequate (leaves : List Node) (i : Nat) :
    leaves.length ≤ (i + 1) * 2 ^ leaves.length := by
  calc leaves.length ≤ 2 ^ leaves.length := Nat.le_of_lt (Nat.lt_two_pow _)
    _ ≤ (i + 1) * 2 ^ leaves.length := Nat.le_mul_of_pos_left _ (by omega)

/-- The internal-node recurrence of the construction loop, at the fuel
`NewMerkeTree` passes. -/
theorem nodeAt_internal (H : HashFn) (leaves : List Node) (i : Nat)
    (h : i + 1 < leaves.length) :
    nodeAt H leaves leaves.length i =
      hashPairFn H (nodeAt H leaves leaves.length (2 * i + 1))
        (nodeAt H leaves leaves.length (2 * i + 2)) := by
  obtain ⟨f, hf⟩ : ∃ f, leaves.length = f + 1 := ⟨leaves.length - 1, by omega⟩
  have e1 : (2 * i + 1 + 1) * 2 ^ f = (i + 1) * 2 ^ (f + 1) := by rw [pow_succ]; ring
  have b1 : leaves.length ≤ (2 * i + 1 + 1) * 2 ^ f := by
    rw [hf]
    calc f + 1 ≤ 2 ^ (f + 1) := Nat.le_of_lt (Nat.lt_two_pow _)
      _ ≤ (2 * i + 1 + 1) * 2 ^ f := by rw [e1]; exact Nat.le_mul_of_pos_left _ (by omega)
  have b2 : leaves.length ≤ (2 * i + 2 + 1) * 2 ^ f :=
    b1.trans (Nat.mul_le_mul_right _ (by omega))
  conv_lhs => rw [hf]
  simp only [nodeAt, if_pos h]
  rw [nodeAt_fuel_mono H leaves f leaves.length (2 * i + 1) b1 (nodeAt_fuel_adequate _ _),
    nodeAt_fuel_mono H leaves f leaves.length (2 * i + 2) b2 (nodeAt_fuel_adequate _ _)]

theorem buildTree_hasher (H : HashFn) (leaves : List Node) :
    (buildTree H leaves).hasher = H := rfl

theorem buildTree_length (H : HashFn) (leaves : List Node) :
    (buildTree H leaves).nodes.length = 2 * leaves.length - 1 := by
  simp [buildTree]

theorem buildTree_getD (H : HashFn) (leaves : List Node) (i : Nat)
    (h : i < 2 * leaves.length - 1) :
    (buildTree H leaves).nodes.getD i [] = nodeAt H leaves leaves.length i := by
  have hlen : i < ((List.range (2 * leaves.length - 1)).map (nodeAt H leaves leaves.length)).length := by
    simpa using h
  show ((List.range (2 * leaves.length - 1)).map (nodeAt H leaves leaves.length)).getD i [] = _
  rw [List.getD_eq_getElem _ _ hlen, List.getElem_map, List.getElem_range]

theorem nodeAt_length (H : HashFn) (leaves : List Node)
    (hH : ∀ l, (H l).length = DigestLength)
    (hleaves : ∀ l ∈ leaves, l.length = DigestLength) :
    ∀ fuel i, i < 2 * leaves.length - 1 → (nodeAt H leaves fuel i).length = DigestLength := by
  have hleafcase : ∀ i, i < 2 * leaves.length - 1 →
      (leaves.getD (i - (leaves.length - 1)) []).length = DigestLength := by
    intro i hi
    have hidx : i - (leaves.length - 1) < leaves.length := by omega
    rw [List.getD_eq_getElem _ _ hidx]
    exact hleaves _ (List.getElem_mem _)
  intro fuel
  induction fuel with
  | zero => intro i hi; simpa [nodeAt] using hleafcase i hi
  | succ fuel ih =>
    intro i hi
    by_cases h : i + 1 < leaves.length
    · simp only [nodeAt, if_pos h]
      unfold hashPairFn
      split <;> exact hH _
    · simp only [nodeAt, if_neg h]
      exact hleafcase i hi

/-- A successful `NewMerkeTree` call passed every input check and returned
the built tree. -/
theorem NewMerkeTree_ok_inv (H : HashFn) (leaves : List Node) (t : Tree)
    (h : NewMerkeTree (some H) leaves = .ok t) :
    leaves.length ≠ 0 ∧ isPowerOf2 leaves.length = true ∧
      (∀ l ∈ leaves, l.length = DigestLength) ∧ t = buildTree H leaves := by
  unfold NewMerkeTree at h
  split_ifs at h with h1 h2 h3
  refine ⟨h1, by simpa using h2, ?_, ?_⟩
  · intro l hl
    rw [Bool.not_eq_true, List.any_eq_false] at h3
    simpa [isValidMerkleNode] using h3 l hl
  · exact (Except.ok.inj (h : Except.ok (buildTree H leaves) = Except.ok t)).symm

/-- When every input check passes, `NewMerkeTree` returns the built tree. -/
theorem NewMerkeTree_eq_ok (H : HashFn) (leaves : List Node)
    (hne : leaves ≠ []) (hpow : isPowerOf2 leaves.length = true)
    (hlen : ∀ l ∈ leaves, l.length = DigestLength) :
    NewMerkeTree (some H) leaves = .ok (buildTree H leaves) := by
  unfold NewMerkeTree
  rw [if_neg (by simpa using hne), if_neg (by simp [hpow]), if_neg ?_]
  rw [Bool.not_eq_true, List.any_eq_false]
  intro l hl
  simp [isValidMerkleNode, hlen l hl]

/-! ## Helper lemmas: the proof-collection loop -/

theorem proofLoopAux_mono (t : Tree) :
    ∀ f g i, i ≤ f → i ≤ g → proofLoopAux t f i = proofLoopAux t g i := by
  intro f
  induction f with
  | zero =>
    intro g i hf hg
    have hi : i = 0 := by omega
    subst hi
    cases g <;> simp [proofLoopAux]
  | succ f ih =>
    intro g i hf hg
    by_cases hi : i = 0
    · subst hi
      cases g <;> simp [proofLoopAux]
    · cases g with
      | zero => omega
      | succ g =>
        simp only [proofLoopAux, if_neg hi]
        congr 1
        apply ih
        · simp only [parentIndex, if_neg hi]
          omega
        · simp only [parentIndex, if_neg hi]
          omega

theorem proofLoop_zero (t : Tree) : proofLoop t 0 = [] := rfl

theorem proofLoop_succ (t : Tree) (i : Nat) (hi : 0 < i) :
    proofLoop t i = t.nodes.getD (siblingIndex i).1 [] :: proofLoop t (parentIndex i).1 := by
  unfold proofLoop
  obtain ⟨f, rfl⟩ : ∃ f, i = f + 1 := ⟨i - 1, by omega⟩
  simp only [proofLoopAux, if_neg (by omega : ¬ f + 1 = 0)]
  congr 1
  apply proofLoopAux_mono
  · simp only [parentIndex, if_neg (by omega : ¬ f + 1 = 0)]
    omega
  · exact Nat.le_refl _

/-- Every proof element collected from an odd-length node array is one of the
tree's nodes. -/
theorem proofLoop_mem (t : Tree) (hodd : t.nodes.length % 2 = 1) :
    ∀ i, i < t.nodes.length →
      ∀ x ∈ proofLoop t i, ∃ s, s < t.nodes.length ∧ x = t.nodes.getD s [] := by
  intro i
  induction i using Nat.strong_induction_on with
  | _ i ih =>
    intro hi x hx
    by_cases h0 : i = 0
    · subst h0
      simp [proofLoop_zero] at hx
    · rw [proofLoop_succ t i (by omega)] at hx
      rcases List.mem_cons.mp hx with hx | hx
      · refine ⟨(siblingIndex i).1, ?_, hx⟩
        simp only [siblingIndex, if_neg h0]
        split_ifs with hpar <;> omega
      · have hplt : (parentIndex i).1 < i := by
          simp only [parentIndex, if_neg h0]
          omega
        exact ih (parentIndex i).1 hplt (by omega) x hx

/-- Replaying the pair hash over the collected proof, starting from any node
of the built tree, reaches the root. -/
theorem fold_to_root (H : HashFn) (leaves : List Node) (hne : leaves ≠ []) :
    ∀ i, i < 2 * leaves.length - 1 →
      (proofLoop (buildTree H leaves) i).foldl
          (fun node p => hashPair (buildTree H leaves) node p)
          ((buildTree H leaves).nodes.getD i []) =
        (buildTree H leaves).nodes.getD 0 [] := by
  have hk : 0 < leaves.length := List.length_pos.mpr hne
  intro i
  induction i using Nat.strong_induction_on with
  | _ i ih =>
    intro hi
    by_cases h0 : i = 0
    · subst h0
      rw [proofLoop_zero]
      rfl
    · rw [proofLoop_succ _ i (by omega), List.foldl_cons]
      have hs1 : (siblingIndex i).1 < 2 * leaves.length - 1 := by
        simp only [siblingIndex, if_neg h0]
        split_ifs with hpar <;> omega
      have hp1 : (parentIndex i).1 < 2 * leaves.length - 1 := by
        simp only [parentIndex, if_neg h0]
        omega
      have hkey : hashPair (buildTree H leaves) ((buildTree H leaves).nodes.getD i [])
          ((buildTree H leaves).nodes.getD (siblingIndex i).1 []) =
          (buildTree H leaves).nodes.getD (parentIndex i).1 [] := by
        have hp : (parentIndex i).1 = (i - 1) / 2 := by simp [parentIndex, h0]
        have hinternal : (i - 1) / 2 + 1 < leaves.length := by omega
        have hrec := nodeAt_internal H leaves ((i - 1) / 2) hinternal
        rw [buildTree_getD _ _ _ hi, buildTree_getD _ _ _ hs1, buildTree_getD _ _ _ hp1, hp]
        have hhasher : ∀ a b, hashPair (buildTree H leaves) a b = hashPairFn H a b :=
          fun a b => rfl
        rw [hhasher]
        have hs : (siblingIndex i).1 = if i % 2 = 0 then i - 1 else i + 1 := by
          simp only [siblingIndex, if_neg h0]
          split <;> rfl
        rw [hs]
        by_cases hpar : i % 2 = 0
        · rw [if_pos hpar]
          have e1 : 2 * ((i - 1) / 2) + 1 = i - 1 := by omega
          have e2 : 2 * ((i - 1) / 2) + 2 = i := by omega
          rw [e1, e2] at hrec
          rw [hrec]
          exact hashPairFn_comm H _ _
        · rw [if_neg hpar]
          have e1 : 2 * ((i - 1) / 2) + 1 = i := by omega
          have e2 : 2 * ((i - 1) / 2) + 2 = i + 1 := by omega
          rw [e1, e2] at hrec
          exact hrec.symm
      rw [hkey]
      exact ih (parentIndex i).1 (by simp only [parentIndex, if_neg h0]; omega) hp1

/-! ## Helper lemmas: the instrumented proof loop -/

theorem proofLoopCheckedAux_eq (t : Tree) (hodd : t.nodes.length % 2 = 1) :
    ∀ fuel i, i ≤ fuel → i < t.nodes.length →
      proofLoopCheckedAux t fuel i = some (proofLoopAux t fuel i) := by
  intro fuel
  induction fuel with
  | zero =>
    intro i h1 h2
    have : i = 0 := by omega
    subst this
    simp [proofLoopCheckedAux, proofLoopAux]
  | succ fuel ih =>
    intro i h1 h2
    by_cases h0 : i = 0
    · subst h0
      simp [proofLoopCheckedAux, proofLoopAux]
    · have hsib2 : (siblingIndex i).2 = none := by
        simp only [siblingIndex, if_neg h0]
        split <;> rfl
      have hpar2 : (parentIndex i).2 = none := by
        simp only [parentIndex, if_neg h0]
      have hs1 : (siblingIndex i).1 < t.nodes.length := by
        have : (siblingIndex i).1 = if i % 2 = 0 then i - 1 else i + 1 := by
          simp only [siblingIndex, if_neg h0]
          split <;> rfl
        rw [this]
        split_ifs with hpar <;> omega
      have hple : (parentIndex i).1 ≤ fuel := by
        simp only [parentIndex, if_neg h0]
        omega
      have hplt : (parentIndex i).1 < t.nodes.length := by
        simp only [parentIndex, if_neg h0]
        omega
      simp only [proofLoopCheckedAux, proofLoopAux, if_neg h0, hsib2, hpar2,
        Option.isSome_none, Bool.or_self, Bool.false_eq_true, if_false, if_pos hs1,
        ih (parentIndex i).1 hple hplt, Option.map_some']

/-! ## Helper lemmas: the structural validator -/

/-- What the validator checks, spelled out: a non-empty array whose length+1
is a power of two, every node 32 bytes, and every position with two in-bounds
children equal to the pair hash of its children.  (One-in-bounds-child
positions cannot occur when length+1 is a power of two, the length being odd
then.) -/
theorem isValidMerkleTree_iff (t : Tree) :
    isValidMerkleTree t = true ↔
      (0 < t.nodes.length ∧ (∃ m, t.nodes.length + 1 = 2 ^ m) ∧
       (∀ i < t.nodes.length, (t.nodes.getD i []).length = DigestLength) ∧
       (∀ i < t.nodes.length, rightChildIndex i < t.nodes.length →
          t.nodes.getD i [] =
            hashPair t (t.nodes.getD (leftChildIndex i) [])
              (t.nodes.getD (rightChildIndex i) []))) := by
  unfold isValidMerkleTree
  constructor
  · intro h
    simp only [Bool.and_eq_true, List.all_eq_true, List.mem_range, decide_eq_true_eq] at h
    obtain ⟨⟨hpow, hloop⟩, hpos⟩ := h
    refine ⟨hpos, isPowerOf2_exists _ (by omega) hpow, ?_, ?_⟩
    · intro i hi
      have := (hloop i hi).1
      simpa only [isValidMerkleNode, beq_iff_eq] using this
    · intro i hi hr
      have := (hloop i hi).2
      rw [if_neg (by omega)] at this
      exact eq_of_beq this
  · rintro ⟨hpos, ⟨m, hm⟩, hlen, heq⟩
    simp only [Bool.and_eq_true, List.all_eq_true, List.mem_range, decide_eq_true_eq]
    have hodd : t.nodes.length % 2 = 1 := by
      rcases m with _ | m
      · simp only [pow_zero] at hm
        omega
      · have : 2 ^ (m + 1) = 2 * 2 ^ m := by rw [pow_succ]; ring
        omega
    refine ⟨⟨by rw [hm]; exact isPowerOf2_two_pow m, ?_⟩, hpos⟩
    intro i hi
    refine ⟨by simp only [isValidMerkleNode, beq_iff_eq]; exact hlen i hi, ?_⟩
    by_cases hr : t.nodes.length ≤ rightChildIndex i
    · rw [if_pos hr]
      simp only [rightChildIndex] at hr
      simp only [leftChildIndex, decide_eq_true_eq]
      omega
    · rw [if_neg hr]
      exact beq_iff_eq.mpr (heq i hi (by omega))

/-- Oddness of a valid tree's node count. -/
theorem valid_length_odd (t : Tree) (h : isValidMerkleTree t = true) :
    t.nodes.length % 2 = 1 := by
  obtain ⟨hpos, ⟨m, hm⟩, -, -⟩ := (isValidMerkleTree_iff t).mp h
  rcases m with _ | m
  · simp only [pow_zero] at hm
    omega
  · have : 2 ^ (m + 1) = 2 * 2 ^ m := by rw [pow_succ]; ring
    omega

/-! ## Helper lemmas: state instrumentation -/

theorem hashPairSt_nodes (t : TreeSt) (a b : Node) :
    (hashPairSt t a b).2.nodes = t.nodes := rfl

theorem hashStep_preserves (acc : Node × TreeSt) (p : Node) :
    (hashStep acc p).2.nodes = acc.2.nodes ∧ (hashStep acc p).2.hasher = acc.2.hasher :=
  ⟨rfl, rfl⟩

theorem foldl_hashStep_preserves (proof : List Node) :
    ∀ acc : Node × TreeSt,
      (proof.foldl hashStep acc).2.nodes = acc.2.nodes ∧
        (proof.foldl hashStep acc).2.hasher = acc.2.hasher := by
  induction proof with
  | nil => intro acc; exact ⟨rfl, rfl⟩
  | cons p ps ih =>
    intro acc
    rw [List.foldl_cons]
    exact ⟨(ih (hashStep acc p)).1.trans (hashStep_preserves acc p).1,
      (ih (hashStep acc p)).2.trans (hashStep_preserves acc p).2⟩

theorem validStep_preserves (n : Nat) (acc : Bool × TreeSt) (i : Nat) :
    (validStep n acc i).2.nodes = acc.2.nodes ∧ (validStep n acc i).2.hasher = acc.2.hasher := by
  unfold validStep
  split_ifs <;> exact ⟨rfl, rfl⟩

theorem foldl_validStep_preserves (n : Nat) (l : List Nat) :
    ∀ acc : Bool × TreeSt,
      (l.foldl (validStep n) acc).2.nodes = acc.2.nodes ∧
        (l.foldl (validStep n) acc).2.hasher = acc.2.hasher := by
  induction l with
  | nil => intro acc; exact ⟨rfl, rfl⟩
  | cons x xs ih =>
    intro acc
    rw [List.foldl_cons]
    exact ⟨(ih (validStep n acc x)).1.trans (validStep_preserves n acc x).1,
      (ih (validStep n acc x)).2.trans (validStep_preserves n acc x).2⟩

theorem foldl_buildStep_preserves (l : List Nat) :
    ∀ st : TreeSt,
      (l.foldl (fun st i =>
          (hashPairSt st (st.nodes.getD (leftChildIndex i) [])
            (st.nodes.getD (rightChildIndex i) [])).2) st).nodes = st.nodes ∧
        (l.foldl (fun st i =>
          (hashPairSt st (st.nodes.getD (leftChildIndex i) [])
            (st.nodes.getD (rightChildIndex i) [])).2) st).hasher = st.hasher := by
  induction l with
  | nil => intro st; exact ⟨rfl, rfl⟩
  | cons x xs ih =>
    intro st
    rw [List.foldl_cons]
    exact ⟨(ih _).1, (ih _).2⟩

/-- The stateful build produces the same node array and hasher as the pure
build; only the hasher buffer records the loop's pair hashes. -/
theorem buildSt_components (H : HashFn) (hbuf : List Nat) (leaves : List Node) :
    (buildSt H hbuf leaves).nodes = (buildTree H leaves).nodes ∧
      (buildSt H hbuf leaves).hasher = H := by
  unfold buildSt
  exact foldl_buildStep_preserves _ _

/-! ## Helper lemmas: the injective demonstration hasher -/

theorem zipHash_inj : ∀ x y : List Nat, x.length = 64 → y.length = 64 →
    zipHash x = zipHash y → x = y := by
  intro x y hx hy h
  unfold zipHash at h
  rw [if_pos hx, if_pos hy] at h
  have hlx : (List.zipWith Nat.pair (x.take 32) (x.drop 32)).length = 32 := by
    simp [hx]
  have hxt : x.take 32 = y.take 32 := by
    apply List.ext_getElem (by simp [hx, hy])
    intro j hj1 hj2
    have hj : j < (List.zipWith Nat.pair (x.take 32) (x.drop 32)).length := by
      simp [hx] at hj1
      omega
    have hbit := List.getElem_of_eq h hj
    rw [List.getElem_zipWith, List.getElem_zipWith] at hbit
    exact (Nat.pair_eq_pair.mp hbit).1
  have hxd : x.drop 32 = y.drop 32 := by
    apply List.ext_getElem (by simp [hx, hy])
    intro j hj1 hj2
    have hj : j < (List.zipWith Nat.pair (x.take 32) (x.drop 32)).length := by
      simp [hx] at hj1
      omega
    have hbit := List.getElem_of_eq h hj
    rw [List.getElem_zipWith, List.getElem_zipWith] at hbit
    exact (Nat.pair_eq_pair.mp hbit).2
  calc x = x.take 32 ++ x.drop 32 := (List.take_append_drop 32 x).symm
    _ = y.take 32 ++ y.drop 32 := by rw [hxt, hxd]
    _ = y := List.take_append_drop 32 y

theorem zipHash_length (l : List Nat) : (zipHash l).length = 32 := by
  unfold zipHash
  split_ifs with h
  · simp [h]
  · simp

/-! ## Claim theorems -/

/-- C3: for every pair of digests `a` and `b`, `hashPair(a, b)` equals
`hashPair(b, a)`: the operands are concatenated in byte-wise ascending order
before hashing, so the result is independent of argument order. -/
theorem hashPair_order_independent (t : Tree) (a b : Node) :
    hashPair t a b = hashPair t b a :=
  hashPairFn_comm t.hasher a b

/-- C4: the structural validator returns false whenever the node array length
plus one is not a power of two, or some node is not exactly 32 bytes, or some
node with two in-bounds children differs from the pair hash of its children,
or the array is empty; it returns true exactly when all these checks pass. -/
theorem validator_characterization (t : Tree) :
    isValidMerkleTree t = true ↔
      (t.nodes ≠ [] ∧ (∃ m, t.nodes.length + 1 = 2 ^ m) ∧
       (∀ i < t.nodes.length, (t.nodes.getD i []).length = DigestLength) ∧
       (∀ i < t.nodes.length, rightChildIndex i < t.nodes.length →
          t.nodes.getD i [] =
            hashPair t (t.nodes.getD (leftChildIndex i) [])
              (t.nodes.getD (rightChildIndex i) []))) := by
  rw [isValidMerkleTree_iff]
  constructor
  · rintro ⟨h1, h2⟩
    refine ⟨?_, h2⟩
    intro hnil
    rw [hnil] at h1
    simp at h1
  · rintro ⟨h1, h2⟩
    exact ⟨List.length_pos.mpr h1, h2⟩

/-- Witness for C4 at a concrete 3-node tree. -/
theorem validator_characterization_witness : isValidMerkleTree tripleTree = true :=
  (validator_characterization tripleTree).mpr
    ⟨by decide, ⟨2, by decide⟩, by decide, by decide⟩

/-- C7 counterexample: in a single-node tree, index 0 is classified as a leaf
and `GetProofByIndex` succeeds with the empty proof, so the claim is false for
that tree. -/
theorem root_proof_singleton_ok : GetProofByIndex singleTree 0 = Except.ok [] := by
  decide

/-- C7 amended: for every tree except the single-node ones, `GetProofByIndex`
at the root index 0 fails with the `NotALeaf` error. -/
theorem root_proof_fails (t : Tree) (h : t.nodes.length ≠ 1) :
    GetProofByIndex t 0 = Except.error "not a leaf node" := by
  have hleaf : isLeafNode t 0 = false := by
    by_cases h2 : t.nodes.length = 0
    · simp [isLeafNode, isTreeNode, h2]
    · have h3 : 1 < t.nodes.length := by omega
      simp [isLeafNode, isTreeNode, isInternalNode, leftChildIndex, h3]
  unfold GetProofByIndex
  rw [hleaf]
  rfl

/-- Witness for C7 at a concrete 3-node tree. -/
theorem root_proof_fails_witness :
    GetProofByIndex tripleTree 0 = Except.error "not a leaf node" :=
  root_proof_fails tripleTree (by decide)

/-- Rounding to binary64 is the identity on values up to 2^53. -/
theorem fl53_eq_self (m : Nat) (h : m ≤ 2 ^ 53) : fl53 m = m := by
  rcases Nat.lt_or_ge m (2 ^ 53) with h1 | h1
  · unfold fl53
    rw [if_pos h1]
  · have h2 : m = 2 ^ 53 := by omega
    subst h2
    have hlog : Nat.log2 (2 ^ 53) = 53 := by
      rw [Nat.log2_eq_log_two]
      exact Nat.log_pow (by norm_num) 53
    unfold fl53
    rw [if_neg (by omega), hlog]
    norm_num

/-- Below 2^53 the float64 detour of `parentIndex` computes exact floor
division, so the simplified `parentIndex` used by the tree operations agrees
with the bit-exact model on every realizable index. -/
theorem parentIndexFl_agree (i : Nat) (h : i ≤ 2 ^ 53) :
    parentIndexFl i = parentIndex i := by
  unfold parentIndexFl parentIndex
  split_ifs with h0
  · rfl
  · rw [fl53_eq_self i h, fl53_eq_self (i - 1) (by omega)]

/-- C8 counterexample: at `i = 2^53 + 4` (a representable Go int), the
float64 arithmetic of `parentIndex` returns `4503599627370498` with a nil
error, while `floor((i-1)/2) = 4503599627370497`: the subtraction
`float64(i) - 1` rounds `2^53 + 3` up to the even-significand neighbour
`2^53 + 4`. -/
theorem parentIndex_float_diverges :
    parentIndexFl 9007199254740996 = (4503599627370498, none) ∧
      (9007199254740996 - 1) / 2 = 4503599627370497 ∧
      (4503599627370498 : Nat) ≠ 4503599627370497 := by
  refine ⟨?_, by norm_num, by norm_num⟩
  have hlog1 : Nat.log2 9007199254740996 = 53 := by
    rw [Nat.log2_eq_log_two]
    exact Nat.log_eq_of_pow_le_of_lt_pow (by norm_num) (by norm_num)
  have hlog2 : Nat.log2 9007199254740995 = 53 := by
    rw [Nat.log2_eq_log_two]
    exact Nat.log_eq_of_pow_le_of_lt_pow (by norm_num) (by norm_num)
  have h1 : fl53 9007199254740996 = 9007199254740996 := by
    unfold fl53
    rw [if_neg (by norm_num), hlog1]
    norm_num
  have h2 : fl53 9007199254740995 = 9007199254740996 := by
    unfold fl53
    rw [if_neg (by norm_num), hlog2]
    norm_num
  unfold parentIndexFl
  rw [if_neg (by norm_num), h1,
    (by norm_num : (9007199254740996 : Nat) - 1 = 9007199254740995), h2]

/-- C8 amended: `parentIndex` fails exactly at 0, and for every
`1 <= i <= 2^53` returns `floor((i-1)/2)` (characterized: `i` is one of the
two children of the returned position) with a nil error; beyond 2^53 the
float64 rounding can return a different value. -/
theorem parentIndexFl_spec (i : Nat) :
    ((parentIndexFl i).2.isSome ↔ i = 0) ∧
      (0 < i → i ≤ 2 ^ 53 →
        parentIndexFl i = ((i - 1) / 2, none) ∧
          (2 * (parentIndexFl i).1 + 1 = i ∨ 2 * (parentIndexFl i).1 + 2 = i)) := by
  constructor
  · unfold parentIndexFl
    split_ifs with h <;> simp [h]
  · intro hi hle
    have h1 : fl53 i = i := fl53_eq_self i hle
    have h2 : fl53 (i - 1) = i - 1 := fl53_eq_self (i - 1) (by omega)
    unfold parentIndexFl
    rw [if_neg (by omega), h1, h2]
    refine ⟨rfl, ?_⟩
    show 2 * ((i - 1) / 2) + 1 = i ∨ 2 * ((i - 1) / 2) + 2 = i
    omega

/-- Witness for C8 at 0 and 5. -/
theorem parentIndexFl_spec_witness :
    (parentIndexFl 0).2.isSome ∧ parentIndexFl 5 = (2, none) :=
  ⟨(parentIndexFl_spec 0).1.mpr rfl,
    ((parentIndexFl_spec 5).2 (by omega) (by norm_num)).1⟩

/-- C9 counterexample: on the tree actually built by `NewMerkeTree` from four
32-byte leaves with a fresh hasher (empty buffer), the build's final pair
hash leaves the root's children in the hasher, and a subsequent `Verify`
call re-hashes every internal pair and leaves the last leaf pair there
instead: the built tree is not left unchanged by the query. -/
theorem verify_mutates_hasher_state :
    NewMerkeTreeSt (some constHash) [] demoLeaves4 =
        Except.ok (buildSt constHash [] demoLeaves4) ∧
      (VerifySt (buildSt constHash [] demoLeaves4)).2.hbuf ≠
        (buildSt constHash [] demoLeaves4).hbuf ∧
      (VerifySt (buildSt constHash [] demoLeaves4)).2 ≠ buildSt constHash [] demoLeaves4 :=
  ⟨rfl, by decide, fun h => absurd (congrArg TreeSt.hbuf h) (by decide)⟩

/-- C9 amended: the query operations never mutate the node array or the
hasher function, and the two proof operations never touch the hasher at all;
only the hasher's internal buffer is mutated, by the hashing operations. -/
theorem queries_preserve_tree (t : TreeSt) (i : Nat) (leaf : Node) (proof : List Node) :
    (GetProofByIndexSt t i).2 = t ∧ (GetProofSt t leaf).2 = t ∧
      (ProcessProofSt t leaf proof).2.nodes = t.nodes ∧
      (ProcessProofSt t leaf proof).2.hasher = t.hasher ∧
      (VerifySt t).2.nodes = t.nodes ∧ (VerifySt t).2.hasher = t.hasher := by
  refine ⟨rfl, rfl, ?_, ?_, ?_, ?_⟩
  · unfold ProcessProofSt
    split_ifs
    · rfl
    · rfl
    · exact (foldl_hashStep_preserves proof (leaf, t)).1
  · unfold ProcessProofSt
    split_ifs
    · rfl
    · rfl
    · exact (foldl_hashStep_preserves proof (leaf, t)).2
  · unfold VerifySt isValidMerkleTreeSt
    split_ifs
    · rfl
    · exact (foldl_validStep_preserves _ _ (true, t)).1
  · unfold VerifySt isValidMerkleTreeSt
    split_ifs
    · rfl
    · exact (foldl_validStep_preserves _ _ (true, t)).2

/-- C10: on any odd-length node array, `GetProofByIndex` performs only
in-bounds accesses and every discarded error is nil (the instrumented run
returns `some` of the plain result); on the even-length two-node array the
instrumented run aborts, so the guarantee does not extend to even lengths. -/
theorem proof_access_in_bounds :
    (∀ (t : Tree) (i : Nat), t.nodes.length % 2 = 1 →
       GetProofByIndexChecked t i = some (GetProofByIndex t i)) ∧
      GetProofByIndexChecked pairTree 1 = none := by
  constructor
  · intro t i hodd
    unfold GetProofByIndexChecked GetProofByIndex
    by_cases hleaf : isLeafNode t i = true
    · rw [if_neg (by simp [hleaf]), if_neg (by simp [hleaf])]
      have hi : i < t.nodes.length := by
        simp only [isLeafNode, Bool.and_eq_true, isTreeNode, decide_eq_true_eq] at hleaf
        exact hleaf.1
      unfold proofLoopChecked
      rw [proofLoopCheckedAux_eq t hodd i i (Nat.le_refl i) hi]
      rfl
    · have hleaf' : isLeafNode t i = false := by
        rw [Bool.not_eq_true] at hleaf
        exact hleaf
      rw [hleaf']
      rfl
  · decide

/-- Witness for C10 at a concrete odd-length tree. -/
theorem proof_access_in_bounds_witness :
    GetProofByIndexChecked tripleTree 1 = some (GetProofByIndex tripleTree 1) :=
  proof_access_in_bounds.1 tripleTree 1 (by decide)

/-- C1: for every tree built by `NewMerkeTree` (under a hasher producing
32-byte digests) and every leaf position, `GetProofByIndex` returns a proof,
and `ProcessProof` on the leaf's node and that proof returns the root with no
error. -/
theorem proof_roundtrip (H : HashFn) (leaves : List Node) (t : Tree) (i : Nat)
    (hbuild : NewMerkeTree (some H) leaves = .ok t)
    (hH : ∀ l, (H l).length = DigestLength)
    (hleaf : isLeafNode t i = true) :
    GetProofByIndex t i = .ok (proofLoop t i) ∧
      ProcessProof t (t.nodes.getD i []) (proofLoop t i) = .ok (t.nodes.getD 0 []) := by
  obtain ⟨hne0, hpow, hlen, rfl⟩ := NewMerkeTree_ok_inv H leaves t hbuild
  have hne : leaves ≠ [] := by
    intro h
    rw [h] at hne0
    simp at hne0
  have hi : i < (buildTree H leaves).nodes.length := by
    simp only [isLeafNode, Bool.and_eq_true, isTreeNode, decide_eq_true_eq] at hleaf
    exact hleaf.1
  have hlen2 : (buildTree H leaves).nodes.length = 2 * leaves.length - 1 :=
    buildTree_length H leaves
  have hkpos : 0 < leaves.length := List.length_pos.mpr hne
  have hodd : (buildTree H leaves).nodes.length % 2 = 1 := by
    rw [hlen2]
    omega
  constructor
  · unfold GetProofByIndex
    rw [if_neg (by simp [hleaf])]
  · unfold ProcessProof
    have hleafvalid : isValidMerkleNode ((buildTree H leaves).nodes.getD i []) = true := by
      simp only [isValidMerkleNode, beq_iff_eq]
      rw [buildTree_getD H leaves i (by omega)]
      exact nodeAt_length H leaves hH hlen leaves.length i (by omega)
    rw [if_neg (by rw [hleafvalid]; simp)]
    have hproofvalid :
        (proofLoop (buildTree H leaves) i).any (fun p => ! isValidMerkleNode p) = false := by
      rw [List.any_eq_false]
      intro x hx
      obtain ⟨s, hs, rfl⟩ := proofLoop_mem (buildTree H leaves) hodd i hi x hx
      have hsval : isValidMerkleNode ((buildTree H leaves).nodes.getD s []) = true := by
        simp only [isValidMerkleNode, beq_iff_eq]
        rw [buildTree_getD H leaves s (by omega)]
        exact nodeAt_length H leaves hH hlen leaves.length s (by omega)
      show ¬ (! isValidMerkleNode ((buildTree H leaves).nodes.getD s [])) = true
      rw [hsval]
      simp
    rw [if_neg (by rw [hproofvalid]; simp)]
    exact congrArg Except.ok (fold_to_root H leaves hne i (by omega))

/-- Witness for C1 on a concrete 2-leaf tree. -/
theorem proof_roundtrip_witness :
    GetProofByIndex (buildTree constHash demoLeaves) 1 =
        Except.ok (proofLoop (buildTree constHash demoLeaves) 1) ∧
      ProcessProof (buildTree constHash demoLeaves)
          ((buildTree constHash demoLeaves).nodes.getD 1 [])
          (proofLoop (buildTree constHash demoLeaves) 1) =
        Except.ok ((buildTree constHash demoLeaves).nodes.getD 0 []) :=
  proof_roundtrip constHash demoLeaves (buildTree constHash demoLeaves) 1 rfl
    (fun _ => rfl) (by decide)

/-- C2: for every non-empty power-of-two-length sequence of 32-byte leaves
and a (non-nil) hasher producing 32-byte digests, `NewMerkeTree` succeeds and
the built tree passes the structural validator. -/
theorem build_valid (H : HashFn) (leaves : List Node)
    (hH : ∀ l, (H l).length = DigestLength)
    (hne : leaves ≠ []) (hpow : ∃ m, leaves.length = 2 ^ m)
    (hlen : ∀ l ∈ leaves, l.length = DigestLength) :
    NewMerkeTree (some H) leaves = .ok (buildTree H leaves) ∧
      Verify (buildTree H leaves) = true := by
  have hk : 0 < leaves.length := List.length_pos.mpr hne
  have hpow2 : isPowerOf2 leaves.length = true := (isPowerOf2_iff _ hk).mpr hpow
  refine ⟨NewMerkeTree_eq_ok H leaves hne hpow2 hlen, ?_⟩
  unfold Verify
  rw [isValidMerkleTree_iff]
  obtain ⟨m, hm⟩ := hpow
  have hlen2 := buildTree_length H leaves
  refine ⟨by omega, ⟨m + 1, by rw [hlen2, pow_succ]; omega⟩, ?_, ?_⟩
  · intro i hi
    rw [hlen2] at hi
    rw [buildTree_getD H leaves i hi]
    exact nodeAt_length H leaves hH hlen leaves.length i hi
  · intro i hi hr
    rw [hlen2] at hi
    rw [hlen2] at hr
    simp only [rightChildIndex, leftChildIndex] at hr ⊢
    rw [buildTree_getD H leaves i hi, buildTree_getD H leaves (2 * i + 1) (by omega),
      buildTree_getD H leaves (2 * i + 2) (by omega)]
    have hh : ∀ a b, hashPair (buildTree H leaves) a b = hashPairFn H a b := fun a b => rfl
    rw [hh]
    exact nodeAt_internal H leaves i (by omega)

/-- Witness for C2 on a concrete 2-leaf input. -/
theorem build_valid_witness :
    NewMerkeTree (some constHash) demoLeaves = Except.ok (buildTree constHash demoLeaves) ∧
      Verify (buildTree constHash demoLeaves) = true :=
  build_valid constHash demoLeaves (fun _ => rfl) (by decide) ⟨1, by decide⟩ (by decide)

/-- C5 counterexample: single-byte mutations can go undetected.  In a
single-node tree the validator accepts any 32-byte node, so mutating its only
node keeps it valid; and under a collision-prone (here constant) hasher a
mutated leaf of a 3-node valid tree also keeps the tree valid. -/
theorem mutation_not_detected_cases :
    (isValidMerkleTree singleTree = true ∧
      isValidMerkleTree (setByte singleTree 0 0 5) = true) ∧
    (isValidMerkleTree constTree = true ∧
      isValidMerkleTree (setByte constTree 1 0 5) = true) :=
  ⟨⟨by decide, by decide⟩, ⟨by decide, by decide⟩⟩

/-- C5 amended: in a valid tree with more than one node, under a hasher that
is injective on 64-byte inputs, changing any single byte of any node (keeping
its 32-byte length) makes the validator return false. -/
theorem mutation_detected (t : Tree) (j b v : Nat)
    (hInj : ∀ x y : List Nat, x.length = 64 → y.length = 64 →
      t.hasher x = t.hasher y → x = y)
    (hval : isValidMerkleTree t = true)
    (hsize : 1 < t.nodes.length)
    (hj : j < t.nodes.length)
    (hb : b < (t.nodes.getD j []).length)
    (hv : v ≠ (t.nodes.getD j []).getD b 0) :
    isValidMerkleTree (setByte t j b v) = false := by
  obtain ⟨hpos, hpow, hlen, heq⟩ := (isValidMerkleTree_iff t).mp hval
  have hodd := valid_length_odd t hval
  have hlenset : (setByte t j b v).nodes.length = t.nodes.length := by
    simp [setByte]
  have hget : ∀ i, i < t.nodes.length → i ≠ j →
      (setByte t j b v).nodes.getD i [] = t.nodes.getD i [] := by
    intro i hi hij
    show (t.nodes.set j ((t.nodes.getD j []).set b v)).getD i [] = _
    rw [List.getD_eq_getElem _ _ (by simpa using hi), List.getD_eq_getElem _ _ hi]
    exact List.getElem_set_ne (by omega) _
  have hgetj : (setByte t j b v).nodes.getD j [] = (t.nodes.getD j []).set b v := by
    show (t.nodes.set j ((t.nodes.getD j []).set b v)).getD j [] = _
    rw [List.getD_eq_getElem _ _ (by simpa using hj)]
    exact List.getElem_set_self (by simpa using hj)
  have hne2 : (t.nodes.getD j []).set b v ≠ t.nodes.getD j [] := by
    intro hcontra
    apply hv
    have hblen : b < ((t.nodes.getD j []).set b v).length := by
      rw [List.length_set]
      exact hb
    have hval2 := List.getElem_of_eq hcontra hblen
    rw [List.getElem_set_self (by rwa [List.length_set] at hblen)] at hval2
    rw [List.getD_eq_getElem _ _ hb]
    exact hval2
  by_contra hcontra
  rw [Bool.not_eq_false] at hcontra
  obtain ⟨hpos', hpow', hlen', heq'⟩ := (isValidMerkleTree_iff _).mp hcontra
  have hhp : ∀ x y, hashPair (setByte t j b v) x y = hashPairFn t.hasher x y :=
    fun x y => rfl
  have hhp2 : ∀ x y, hashPair t x y = hashPairFn t.hasher x y := fun x y => rfl
  by_cases hint : rightChildIndex j < t.nodes.length
  · have h1 := heq' j (by rw [hlenset]; exact hj) (by rwa [hlenset])
    rw [hgetj, hhp, hget (leftChildIndex j)
        (by simp only [leftChildIndex, rightChildIndex] at hint ⊢; omega)
        (by simp only [leftChildIndex]; omega),
      hget (rightChildIndex j) (by omega) (by simp only [rightChildIndex]; omega)] at h1
    rw [← hhp2, ← heq j hj hint] at h1
    exact hne2 h1
  · have hj1 : 1 ≤ j := by
      by_contra hj0
      have hj00 : j = 0 := by omega
      subst hj00
      simp only [rightChildIndex] at hint
      omega
    have hp_lt : (j - 1) / 2 < t.nodes.length := by omega
    have hpj : (j - 1) / 2 ≠ j := by omega
    rcases Nat.even_or_odd j with hev | hod
    · obtain ⟨w, hw⟩ := hev
      have e1 : leftChildIndex ((j - 1) / 2) = j - 1 := by
        simp only [leftChildIndex]
        omega
      have e2 : rightChildIndex ((j - 1) / 2) = j := by
        simp only [rightChildIndex]
        omega
      have hsib_lt : j - 1 < t.nodes.length := by omega
      have hrp : rightChildIndex ((j - 1) / 2) < t.nodes.length := by
        rw [e2]
        omega
      have hpeq := heq ((j - 1) / 2) hp_lt hrp
      have hpeq' := heq' ((j - 1) / 2) (by rwa [hlenset]) (by rwa [hlenset])
      rw [e1, e2] at hpeq hpeq'
      rw [hget ((j - 1) / 2) hp_lt hpj, hget (j - 1) hsib_lt (by omega), hgetj, hhp] at hpeq'
      rw [hhp2] at hpeq
      have hc : hashPairFn t.hasher ((t.nodes.getD j []).set b v) (t.nodes.getD (j - 1) []) =
          hashPairFn t.hasher (t.nodes.getD j []) (t.nodes.getD (j - 1) []) := by
        rw [hashPairFn_comm t.hasher ((t.nodes.getD j []).set b v) (t.nodes.getD (j - 1) []),
          hashPairFn_comm t.hasher (t.nodes.getD j []) (t.nodes.getD (j - 1) [])]
        exact hpeq'.symm.trans hpeq
      exact hne2 (hashPairFn_left_cancel t.hasher hInj
        (by rw [List.length_set]; exact hlen j hj) (hlen j hj) (hlen (j - 1) hsib_lt) hc)
    · obtain ⟨w, hw⟩ := hod
      have e1 : leftChildIndex ((j - 1) / 2) = j := by
        simp only [leftChildIndex]
        omega
      have e2 : rightChildIndex ((j - 1) / 2) = j + 1 := by
        simp only [rightChildIndex]
        omega
      have hsib_lt : j + 1 < t.nodes.length := by omega
      have hrp : rightChildIndex ((j - 1) / 2) < t.nodes.length := by
        rw [e2]
        exact hsib_lt
      have hpeq := heq ((j - 1) / 2) hp_lt hrp
      have hpeq' := heq' ((j - 1) / 2) (by rwa [hlenset]) (by rwa [hlenset])
      rw [e1, e2] at hpeq hpeq'
      rw [hget ((j - 1) / 2) hp_lt hpj, hget (j + 1) hsib_lt (by omega), hgetj, hhp] at hpeq'
      rw [hhp2] at hpeq
      exact hne2 (hashPairFn_left_cancel t.hasher hInj
        (by rw [List.length_set]; exact hlen j hj) (hlen j hj) (hlen (j + 1) hsib_lt)
        (hpeq'.symm.trans hpeq))

/-- Witness for C5 on a concrete valid 3-node tree under the injective
hasher. -/
theorem mutation_detected_witness :
    isValidMerkleTree zipTree = true ∧
      isValidMerkleTree (setByte zipTree 1 0 7) = false :=
  ⟨by decide, mutation_detected zipTree 1 0 7
    (fun x y hx hy h => zipHash_inj x y hx hy h)
    (by decide) (by decide) (by decide) (by decide) (by decide)⟩

/-- The Keccak-256 model reproduces the digest of "0" documented in the
repository's tests. -/
theorem keccak_vec0 : keccak256 [48] = kL0v := by decide

/-- The digest of "1". -/
theorem keccak_vec1 : keccak256 [49] = kL1v := by decide

/-- The digest of "2". -/
theorem keccak_vec2 : keccak256 [50] = kL2v := by decide

/-- The digest of "3" documented in the repository's tests. -/
theorem keccak_vec3 : keccak256 [51] = kL3v := by decide

theorem keccak_pair1 : hashPairFn keccak256 kL0v kL1v = kN1v := by decide

theorem keccak_pair2 : hashPairFn keccak256 kL2v kL3v = kN2v := by decide

theorem keccak_pair0 : hashPairFn keccak256 kN1v kN2v = kN0v := by decide

theorem kNode3 : nodeAt keccak256 kLeaves kLeaves.length 3 = kL0v := by
  rw [nodeAt_leaf keccak256 kLeaves kLeaves.length 3 (by decide)]
  exact keccak_vec0

theorem kNode4 : nodeAt keccak256 kLeaves kLeaves.length 4 = kL1v := by
  rw [nodeAt_leaf keccak256 kLeaves kLeaves.length 4 (by decide)]
  exact keccak_vec1

theorem kNode5 : nodeAt keccak256 kLeaves kLeaves.length 5 = kL2v := by
  rw [nodeAt_leaf keccak256 kLeaves kLeaves.length 5 (by decide)]
  exact keccak_vec2

theorem kNode6 : nodeAt keccak256 kLeaves kLeaves.length 6 = kL3v := by
  rw [nodeAt_leaf keccak256 kLeaves kLeaves.length 6 (by decide)]
  exact keccak_vec3

theorem kNode1 : nodeAt keccak256 kLeaves kLeaves.length 1 = kN1v := by
  rw [nodeAt_internal keccak256 kLeaves 1 (by decide)]
  rw [(by norm_num : 2 * 1 + 1 = 3), (by norm_num : 2 * 1 + 2 = 4)]
  rw [kNode3, kNode4]
  exact keccak_pair1

theorem kNode2 : nodeAt keccak256 kLeaves kLeaves.length 2 = kN2v := by
  rw [nodeAt_internal keccak256 kLeaves 2 (by decide)]
  rw [(by norm_num : 2 * 2 + 1 = 5), (by norm_num : 2 * 2 + 2 = 6)]
  rw [kNode5, kNode6]
  exact keccak_pair2

theorem kNode0 : nodeAt keccak256 kLeaves kLeaves.length 0 = kN0v := by
  rw [nodeAt_internal keccak256 kLeaves 0 (by decide)]
  rw [(by norm_num : 2 * 0 + 1 = 1), (by norm_num : 2 * 0 + 2 = 2)]
  rw [kNode1, kNode2]
  exact keccak_pair0

theorem kTree_nodes : kTree.nodes = [kN0v, kN1v, kN2v, kL0v, kL1v, kL2v, kL3v] := by
  show [nodeAt keccak256 kLeaves kLeaves.length 0, nodeAt keccak256 kLeaves kLeaves.length 1,
      nodeAt keccak256 kLeaves kLeaves.length 2, nodeAt keccak256 kLeaves kLeaves.length 3,
      nodeAt keccak256 kLeaves kLeaves.length 4, nodeAt keccak256 kLeaves kLeaves.length 5,
      nodeAt keccak256 kLeaves kLeaves.length 6] =
    [kN0v, kN1v, kN2v, kL0v, kL1v, kL2v, kL3v]
  rw [kNode0, kNode1, kNode2, kNode3, kNode4, kNode5, kNode6]

theorem kTree_eq : kTree = kTreeLit := by
  show Tree.mk keccak256 kTree.nodes = kTreeLit
  rw [kTree_nodes]
  rfl

/-- C6 counterexample: in the 7-node tree over the four test leaves, neither
the proof for index 3 nor the proof for the leaf value L3 is
`[nodes[4], nodes[1]]`, and `ProcessProof(L3, [nodes[4], nodes[1]])` does not
return the root. -/
theorem demo_proof_claim_false :
    GetProofByIndex kTree 3 ≠ Except.ok [kTree.nodes.getD 4 [], kTree.nodes.getD 1 []] ∧
    GetProof kTree (keccak256 [51]) ≠
      Except.ok [kTree.nodes.getD 4 [], kTree.nodes.getD 1 []] ∧
    ProcessProof kTree (keccak256 [51]) [kTree.nodes.getD 4 [], kTree.nodes.getD 1 []] ≠
      Except.ok (kTree.nodes.getD 0 []) := by
  rw [kTree_eq, keccak_vec3]
  refine ⟨by decide, by decide, by decide⟩

/-- C6 amended: building from the four test leaves yields the 7-node tree;
L3 sits at index 6, its returned proof is `[nodes[5], nodes[1]]` (sibling,
then the parent's sibling), and `ProcessProof(L3, that proof)` returns the
root `nodes[0]`; the proof for index 3 (which holds L0) is
`[nodes[4], nodes[2]]`. -/
theorem demo_proof_correct :
    NewMerkeTree (some keccak256) kLeaves = Except.ok kTree ∧
    GetProof kTree (keccak256 [51]) =
      Except.ok [kTree.nodes.getD 5 [], kTree.nodes.getD 1 []] ∧
    ProcessProof kTree (keccak256 [51]) [kTree.nodes.getD 5 [], kTree.nodes.getD 1 []] =
      Except.ok (kTree.nodes.getD 0 []) ∧
    GetProofByIndex kTree 3 = Except.ok [kTree.nodes.getD 4 [], kTree.nodes.getD 2 []] := by
  refine ⟨?_, ?_, ?_, ?_⟩
  · have hlen : ∀ l ∈ kLeaves, l.length = DigestLength := by
      intro l hl
      simp only [kLeaves, List.mem_cons, List.not_mem_nil, or_false] at hl
      rcases hl with h | h | h | h <;> subst h
      · rw [keccak_vec0]; decide
      · rw [keccak_vec1]; decide
      · rw [keccak_vec2]; decide
      · rw [keccak_vec3]; decide
    exact NewMerkeTree_eq_ok keccak256 kLeaves (by decide) (by decide) hlen
  · rw [kTree_eq, keccak_vec3]
    decide
  · rw [kTree_eq, keccak_vec3]
    decide
  · rw [kTree_eq]
    decide

end MerkleTree
